import Mathlib

/-!
Verification of the cluster-wide GET read path of a partitioned, replicated
in-memory key-value store (`dmap_get.go` of package `olric`).

The Go source is shallowly embedded: pure functions become Lean functions,
the RPC/storage collaborators become explicit environment parameters, and the
side effects relevant to the claims (read-repair writes, the access-log
update) become explicit event values returned by the functions.
-/

namespace Olric

/-- A cluster member (`discovery.Member`).  Only its identity matters to the
read path: `hostCmp` is equality. -/
structure Member where
  id : Nat
deriving DecidableEq, Inhabited

/-- `storage.VData`: the stored record for a key.  `Value` is a byte string,
`Timestamp` and `TTL` are `int64` nanosecond values. -/
structure VData where
  key : String
  value : List Nat
  timestamp : Int
  ttl : Int
deriving DecidableEq, Inhabited

/-- `type version struct { host *discovery.Member; Data *storage.VData }`.
`Data = none` models a nil pointer: absence of the key on that host. -/
structure version where
  host : Member
  Data : Option VData
deriving DecidableEq, Inhabited

/-- The client-visible error sentinels plus the internal error kinds. -/
inductive Err where
  | readQuorum
  | keyNotFound
  | transport
  | unmarshal
  | other
deriving DecidableEq, Inhabited

/-- The opcodes of `protocol` the read path issues. -/
inductive OpCode where
  | get
  | getPrev
  | getBackup
  | putReplica
  | putExReplica
deriving DecidableEq, Inhabited

/-- `protocol.PutExtra` / `protocol.PutExExtra` payloads attached to a
repair write. -/
inductive MsgExtra where
  | putExtra (timestamp : Int)
  | putExExtra (timestamp : Int) (ttl : Int)
deriving DecidableEq, Inhabited

/-- The fields of `protocol.Message` the read path fills in. -/
structure Message where
  DMap : String
  Key : String
  Value : List Nat
  Extra : Option MsgExtra
deriving DecidableEq, Inhabited

/-- The `writeop` handed to `localPut` during read repair.  `timeout` is
`time.Duration(winner.Data.TTL)`. -/
structure writeop where
  dmap : String
  key : String
  value : List Nat
  timestamp : Int
  timeout : Int
deriving DecidableEq, Inhabited

/-- `bytes.Compare`: lexicographic three-way comparison of byte strings;
a strict prefix is smaller. -/
def bytesCompare : List Nat → List Nat → Ordering
  | [], [] => .eq
  | [], _ :: _ => .lt
  | _ :: _, [] => .gt
  | a :: as, b :: bs =>
    if a < b then .lt else if b < a then .gt else bytesCompare as bs

/-- The comparator of `sortVersions` (`sort.Slice` less function): equal
timestamps fall back to `bytes.Compare(value_i, value_j) >= 0`, otherwise the
larger timestamp comes first.  The Go code dereferences `Data`
unconditionally (it is only ever run on sanitised, non-nil slices);
`Option.getD default` models that dereference. -/
def versLess (vi vj : version) : Bool :=
  let di := vi.Data.getD default
  let dj := vj.Data.getD default
  if di.timestamp == dj.timestamp then
    bytesCompare di.value dj.value != Ordering.lt
  else
    decide (di.timestamp > dj.timestamp)

/-- The comparator as a propositional relation, for the sort machinery. -/
def versLe (vi vj : version) : Prop := versLess vi vj = true

instance : DecidableRel versLe := fun a b => by
  unfold versLe; infer_instance

/-- `sortVersions`: Go's `sort.Slice` with the `versLess` comparator,
modelled as insertion sort.  (`sort.Slice` promises only *some* order
consistent with the comparator; every theorem below depends only on that.) -/
def sortVersions (versions : List version) : List version :=
  versions.insertionSort versLe

/-- `sanitizeAndSortVersions`: drop the nil-`Data` versions, then sort
unless at most one survives. -/
def sanitizeAndSortVersions (versions : List version) : List version :=
  let sanitized := versions.filter (fun ver => ver.Data.isSome)
  if sanitized.length ≤ 1 then sanitized else sortVersions sanitized

/-- The external collaborators of one `callGetOnCluster` execution, fixed for
the duration of the call: the local node's identity, the local storage result,
the partition's owners/backups lists, the RPC transport, and the msgpack
decoder applied to an *addressable* destination (`&value`). -/
structure LookupEnv where
  this : Member
  localGet : Except Err VData
  owners : List Member
  prevRpc : Member → Except Err (List Nat)
  backups : List Member
  backupRpc : Member → Except Err (List Nat)
  decode : List Nat → Option VData

/-- `msgpack.Unmarshal(resp.Value, data)` as written at `dmap_get.go:89`:
the destination `data` is passed *by value* (not `&data`), so msgpack rejects
it as a non-pointer destination and returns an error for every payload,
leaving `data` untouched. -/
def msgpackUnmarshalNonPtr (_payload : List Nat) : Except Err VData :=
  .error .unmarshal

/-- The `GET-PREV` loop of `lookupOnOwners`: owners are traversed from index
`len-2` down to `0` (everyone but the current primary, which is last).
A transport error or a decode error drops the version; otherwise the version
is appended with the decoded data. -/
def prevOwnerVersions (env : LookupEnv) : List version :=
  env.owners.dropLast.reverse.filterMap (fun owner =>
    match env.prevRpc owner with
    | .error _ => none
    | .ok payload =>
      match msgpackUnmarshalNonPtr payload with
      | .error _ => none
      | .ok d => some { host := owner, Data := some d })

/-- `lookupOnOwners`: one version for the local node (with `Data` present iff
local storage succeeded), then the surviving previous-owner versions.
`none` models the `panic` on an empty owners list. -/
def lookupOnOwners (env : LookupEnv) : Option (List version) :=
  let ver : version := { host := env.this, Data := env.localGet.toOption }
  if env.owners.isEmpty then none
  else some (ver :: prevOwnerVersions env)

/-- `lookupOnReplicas`: one version is appended per backup, in backup-list
order; `Data` is set only when the `GET-BACKUP` RPC succeeds *and* the
payload decodes (here the decoder does get an addressable destination). -/
def lookupOnReplicas (env : LookupEnv) : List version :=
  env.backups.map (fun replica =>
    { host := replica,
      Data :=
        match env.backupRpc replica with
        | .error _ => none
        | .ok payload => env.decode payload })

/-- Modelled from the spec: `isKeyExpired` lives outside `dmap_get.go`;
the spec defines it as `ttl ≠ 0 ∧ now ≥ ttl`. -/
def isKeyExpired (ttl now : Int) : Bool :=
  ttl != 0 && decide (now ≥ ttl)

/-- Modelled from the spec: `config.MinimumReplicaCount` is a constant of the
`config` package, outside `dmap_get.go`; olric sets it to 2 (at least one
backup beside the primary).  Only the comparisons against it matter below. -/
def MinimumReplicaCount : Nat := 2

/-- The read-path configuration fields the claims mention.  `replicaCount`
(the number of configured replicas) is modelled from the spec; `dmap_get.go`
itself reads only `ReadQuorum` and `ReadRepair`. -/
structure Config where
  readQuorum : Nat
  replicaCount : Nat
  readRepair : Bool
deriving DecidableEq, Inhabited

/-- Lines 226-260 of `callGetOnCluster`: the reconciliation stage run on the
pooled versions.  Returns the client result together with a flag recording
whether `dm.updateAccessLog(hkey)` was executed.  `idle` is the outcome of
`dm.isKeyIdle(hkey)` (access log plus max-idle-duration, held outside this
file). -/
def reconcileGet (readQuorum : Nat) (now : Int) (idle : Bool)
    (versions : List version) : Except Err (List Nat) × Bool :=
  if versions.length < readQuorum then (.error .readQuorum, false)
  else
    let sorted := sanitizeAndSortVersions versions
    if sorted.length = 0 then (.error .keyNotFound, false)
    else if sorted.length < readQuorum then (.error .readQuorum, false)
    else
      let winner := sorted.headD default
      let wd := winner.Data.getD default
      if isKeyExpired wd.ttl now || idle then (.error .keyNotFound, false)
      else (.ok wd.value, true)

/-- Lines 221-225 of `callGetOnCluster`: collect the owner versions and, when
`ReadQuorum >= config.MinimumReplicaCount`, append the replica versions. -/
def collectVersions (cfg : Config) (env : LookupEnv) : Option (List version) :=
  match lookupOnOwners env with
  | none => none
  | some vs =>
    some (if MinimumReplicaCount ≤ cfg.readQuorum
          then vs ++ lookupOnReplicas env else vs)

/-- `callGetOnCluster` up to the client reply (read repair runs afterwards,
outside the lock; see `readRepair`).  `none` models the owners-list panic. -/
def callGetOnCluster (cfg : Config) (env : LookupEnv) (now : Int)
    (idle : Bool) : Option (Except Err (List Nat) × Bool) :=
  match collectVersions cfg env with
  | none => none
  | some versions => some (reconcileGet cfg.readQuorum now idle versions)

/-- The observable actions of a read-repair pass, in program order. -/
inductive RepairEvent where
  | lock
  | localPut (w : writeop)
  | unlock
  | request (host : Member) (op : OpCode) (msg : Message)
deriving DecidableEq, Inhabited

/-- One iteration of the `readRepair` loop for the version `ver`:
skip when `ver.Data != nil && winner.Data.Timestamp == ver.Data.Timestamp`;
otherwise write the winner's record, locally (under the DMap write lock)
when `ver.host` is this node, else by `PUT-REPLICA` / `PUT-EX-REPLICA`. -/
def repairOne (name : String) (this : Member) (winner : version)
    (ver : version) : List RepairEvent :=
  let wd := winner.Data.getD default
  let skip : Bool :=
    match ver.Data with
    | some vd => wd.timestamp == vd.timestamp
    | none => false
  if skip then []
  else
    let req : Message :=
      { DMap := name, Key := wd.key, Value := wd.value,
        Extra :=
          if wd.ttl == 0 then some (.putExtra wd.timestamp)
          else some (.putExExtra wd.timestamp wd.ttl) }
    let op : OpCode := if wd.ttl == 0 then .putReplica else .putExReplica
    if ver.host = this then
      [.lock,
       .localPut { dmap := name, key := wd.key, value := wd.value,
                   timestamp := wd.timestamp, timeout := wd.ttl },
       .unlock]
    else
      [.request ver.host op req]

/-- `readRepair`: the loop over the originally collected version set,
emitting its observable actions in order.  Failures of the individual writes
are logged and swallowed, so they do not appear in the model. -/
def readRepair (name : String) (this : Member) (winner : version)
    (versions : List version) : List RepairEvent :=
  versions.flatMap (repairOne name this winner)

/-- The values the user-boundary serializer can yield into an
`interface{}` destination; `emptyStruct` is Go's `struct{}{}`. -/
inductive GoValue where
  | emptyStruct
  | str (s : String)
  | int (i : Int)
  | bytes (bs : List Nat)
deriving DecidableEq, Inhabited

/-- `unmarshalValue`: deserialize the raw bytes; a `struct{}` value is
returned as `nil, nil`. -/
def unmarshalValue (serializer : List Nat → Except Err GoValue)
    (rawval : List Nat) : Except Err (Option GoValue) :=
  match serializer rawval with
  | .error e => .error e
  | .ok value =>
    match value with
    | .emptyStruct => .ok none
    | v => .ok (some v)

/-- `DMap.Get`: run the `get` pipeline (whose outcome is `getResult`), then
`unmarshalValue` on the raw bytes. -/
def DMapGet (serializer : List Nat → Except Err GoValue)
    (getResult : Except Err (List Nat)) : Except Err (Option GoValue) :=
  match getResult with
  | .error e => .error e
  | .ok rawval => unmarshalValue serializer rawval

/-! ### Properties of `bytesCompare` -/

theorem bytesCompare_self (a : List Nat) : bytesCompare a a = .eq := by
  induction a with
  | nil => rfl
  | cons x xs ih => simp [bytesCompare, ih]

theorem bytesCompare_swap (a b : List Nat) :
    bytesCompare b a = (bytesCompare a b).swap := by
  induction a generalizing b with
  | nil => cases b <;> rfl
  | cons x xs ih =>
    cases b with
    | nil => rfl
    | cons y ys =>
      by_cases hxy : x < y
      · have : ¬ y < x := Nat.lt_asymm hxy
        simp [bytesCompare, hxy, this, Ordering.swap]
      · by_cases hyx : y < x
        · simp [bytesCompare, hxy, hyx, Ordering.swap]
        · simp [bytesCompare, hxy, hyx, ih ys]

theorem bytesCompare_eq_iff (a b : List Nat) :
    bytesCompare a b = .eq ↔ a = b := by
  induction a generalizing b with
  | nil => cases b <;> simp [bytesCompare]
  | cons x xs ih =>
    cases b with
    | nil => simp [bytesCompare]
    | cons y ys =>
      by_cases hxy : x < y
      · simp [bytesCompare, hxy]
        intro h; omega
      · by_cases hyx : y < x
        · simp [bytesCompare, hxy, hyx]
          intro h; omega
        · have hxy' : x = y := Nat.le_antisymm (Nat.le_of_not_lt hyx) (Nat.le_of_not_lt hxy)
          simp [bytesCompare, hxy, hyx, ih ys, hxy']

theorem bytesCompare_lt_trans {a b c : List Nat}
    (hab : bytesCompare a b = .lt) (hbc : bytesCompare b c = .lt) :
    bytesCompare a c = .lt := by
  induction a generalizing b c with
  | nil =>
    cases b with
    | nil => simp [bytesCompare] at hab
    | cons y ys =>
      cases c with
      | nil => simp [bytesCompare] at hbc
      | cons z zs => rfl
  | cons x xs ih =>
    cases b with
    | nil => simp [bytesCompare] at hab
    | cons y ys =>
      cases c with
      | nil => simp [bytesCompare] at hbc
      | cons z zs =>
        simp only [bytesCompare] at hab hbc ⊢
        rcases Nat.lt_trichotomy x y with hxy | hxy | hxy
        · rcases Nat.lt_trichotomy y z with hyz | hyz | hyz
          · simp [Nat.lt_trans hxy hyz]
          · subst hyz; simp [hxy]
          · simp [Nat.lt_asymm hyz, hyz] at hbc
        · subst hxy
          simp only [Nat.lt_irrefl, if_neg, reduceIte] at hab
          rcases Nat.lt_trichotomy x z with hxz | hxz | hxz
          · simp [hxz]
          · subst hxz
            simp only [Nat.lt_irrefl, if_neg, reduceIte] at hbc ⊢
            exact ih hab hbc
          · simp [Nat.lt_asymm hxz, hxz] at hbc
        · simp [Nat.lt_asymm hxy, hxy] at hab

/-- "greater or equal" in the `bytes.Compare` order, the form used by the
sort comparator. -/
theorem bytesCompare_ge_trans {a b c : List Nat}
    (hab : bytesCompare a b ≠ .lt) (hbc : bytesCompare b c ≠ .lt) :
    bytesCompare a c ≠ .lt := by
  intro hac
  rcases h1 : bytesCompare a b with _ | _ | _
  · exact hab h1
  · have : a = b := (bytesCompare_eq_iff a b).mp h1
    subst this
    exact hbc hac
  · have hba : bytesCompare b a = .lt := by
      rw [bytesCompare_swap, h1]; rfl
    rcases h2 : bytesCompare b c with _ | _ | _
    · exact hbc h2
    · have : b = c := (bytesCompare_eq_iff b c).mp h2
      subst this
      have := bytesCompare_lt_trans hac hba
      rw [bytesCompare_self] at this
      exact Ordering.noConfusion this
    · have hcb : bytesCompare c b = .lt := by
        rw [bytesCompare_swap, h2]; rfl
      have := bytesCompare_lt_trans (bytesCompare_lt_trans hac hcb) hba
      rw [bytesCompare_self] at this
      exact Ordering.noConfusion this

theorem bytesCompare_ge_total (a b : List Nat) :
    bytesCompare a b ≠ .lt ∨ bytesCompare b a ≠ .lt := by
  rcases h : bytesCompare a b with _ | _ | _
  · right
    rw [bytesCompare_swap, h]
    simp [Ordering.swap]
  · left; simp [h]
  · left; simp [h]

theorem bytesCompare_ge_antisymm {a b : List Nat}
    (hab : bytesCompare a b ≠ .lt) (hba : bytesCompare b a ≠ .lt) :
    a = b := by
  rcases h : bytesCompare a b with _ | _ | _
  · exact absurd h hab
  · exact (bytesCompare_eq_iff a b).mp h
  · exfalso
    apply hba
    rw [bytesCompare_swap, h]
    rfl

/-! ### Properties of the sort comparator and of `sortVersions` -/

theorem ordering_bne_lt {o : Ordering} :
    (o != Ordering.lt) = true ↔ o ≠ Ordering.lt := by
  cases o <;> decide

/-- `versLess` unfolded into a proposition on the compared pairs. -/
theorem versLess_iff (a b : version) :
    versLess a b = true ↔
      ((a.Data.getD default).timestamp = (b.Data.getD default).timestamp ∧
        bytesCompare (a.Data.getD default).value
          (b.Data.getD default).value ≠ .lt) ∨
      (b.Data.getD default).timestamp < (a.Data.getD default).timestamp := by
  unfold versLess
  dsimp only
  split
  · next h =>
    have h' : (a.Data.getD default).timestamp =
        (b.Data.getD default).timestamp := by simpa using h
    rw [ordering_bne_lt]
    constructor
    · intro hx; exact Or.inl ⟨h', hx⟩
    · rintro (⟨_, hv⟩ | hgt)
      · exact hv
      · exact absurd hgt (by omega)
  · next h =>
    have h' : (a.Data.getD default).timestamp ≠
        (b.Data.getD default).timestamp := by simpa using h
    rw [decide_eq_true_eq]
    constructor
    · intro hgt; exact Or.inr hgt
    · rintro (⟨heq, _⟩ | hgt)
      · exact absurd heq h'
      · exact hgt

theorem versLe_refl (a : version) : versLe a a := by
  rw [versLe, versLess_iff]
  exact Or.inl ⟨rfl, by rw [bytesCompare_self]; intro h; cases h⟩

theorem versLe_total (a b : version) : versLe a b ∨ versLe b a := by
  rw [versLe, versLe, versLess_iff, versLess_iff]
  rcases lt_trichotomy (a.Data.getD default).timestamp
      (b.Data.getD default).timestamp with h | h | h
  · exact Or.inr (Or.inr h)
  · rcases bytesCompare_ge_total (a.Data.getD default).value
        (b.Data.getD default).value with hv | hv
    · exact Or.inl (Or.inl ⟨h, hv⟩)
    · exact Or.inr (Or.inl ⟨h.symm, hv⟩)
  · exact Or.inl (Or.inr h)

theorem versLe_trans {a b c : version} (hab : versLe a b) (hbc : versLe b c) :
    versLe a c := by
  rw [versLe, versLess_iff] at hab hbc ⊢
  rcases hab with ⟨hts1, hv1⟩ | hts1 <;> rcases hbc with ⟨hts2, hv2⟩ | hts2
  · exact Or.inl ⟨hts1.trans hts2, bytesCompare_ge_trans hv1 hv2⟩
  · exact Or.inr (by omega)
  · exact Or.inr (by omega)
  · exact Or.inr (by omega)

instance : IsTotal version versLe := ⟨versLe_total⟩

instance : IsTrans version versLe := ⟨fun _ _ _ => versLe_trans⟩

theorem sortVersions_perm (l : List version) : (sortVersions l).Perm l :=
  List.perm_insertionSort versLe l

theorem sortVersions_sorted (l : List version) :
    List.Sorted versLe (sortVersions l) :=
  List.sorted_insertionSort versLe l

/-- The head of the sorted list is `versLe`-maximal over the input list. -/
theorem sortVersions_head_max {l : List version} {w : version}
    {rest : List version} (h : sortVersions l = w :: rest) :
    w ∈ l ∧ ∀ x ∈ l, versLe w x := by
  have hperm := sortVersions_perm l
  rw [h] at hperm
  constructor
  · exact hperm.mem_iff.mp (List.mem_cons_self w rest)
  · intro x hx
    have hx' : x ∈ w :: rest := hperm.mem_iff.mpr hx
    rcases List.mem_cons.mp hx' with hxw | hxr
    · subst hxw; exact versLe_refl x
    · have hs := sortVersions_sorted l
      rw [h] at hs
      exact List.rel_of_sorted_cons hs x hxr

/-- `sanitizeAndSortVersions` is a permutation of the nil-data filter of its
input (the `length ≤ 1` shortcut returns the filter itself). -/
theorem sanitizeAndSortVersions_perm (versions : List version) :
    (sanitizeAndSortVersions versions).Perm
      (versions.filter (fun ver => ver.Data.isSome)) := by
  unfold sanitizeAndSortVersions
  by_cases h :
      (versions.filter (fun ver => ver.Data.isSome)).length ≤ 1
  · simp [h]
  · simp only [h, if_neg, reduceIte]
    exact sortVersions_perm _

theorem sanitizeAndSortVersions_length (versions : List version) :
    (sanitizeAndSortVersions versions).length =
      (versions.filter (fun ver => ver.Data.isSome)).length :=
  (sanitizeAndSortVersions_perm versions).length_eq

theorem sanitizeAndSortVersions_mem {versions : List version} {v : version} :
    v ∈ sanitizeAndSortVersions versions ↔
      v ∈ versions.filter (fun ver => ver.Data.isSome) :=
  (sanitizeAndSortVersions_perm versions).mem_iff

/-- Every element surviving sanitisation has non-nil data. -/
theorem sanitizeAndSortVersions_isSome {versions : List version}
    {v : version} (hv : v ∈ sanitizeAndSortVersions versions) :
    v.Data.isSome := by
  have := sanitizeAndSortVersions_mem.mp hv
  exact (List.mem_filter.mp this).2

/-! ### Sample data used by witnesses and counterexamples -/

/-- The local node. -/
def mA : Member := ⟨0⟩

/-- A remote node (previous owner or replica). -/
def mB : Member := ⟨1⟩

/-- A second remote node. -/
def mC : Member := ⟨2⟩

/-- A stored record. -/
def vd1 : VData := { key := "k", value := [1], timestamp := 100, ttl := 0 }

/-- A record with the same timestamp as `vd1` and larger value bytes. -/
def vd2 : VData := { key := "k", value := [2], timestamp := 100, ttl := 0 }

/-- An older record. -/
def vdOld : VData := { key := "k", value := [9], timestamp := 50, ttl := 0 }

/-- A record that is expired at `now = 60` (`ttl = 50 ≠ 0`). -/
def vdExp : VData := { key := "k", value := [1], timestamp := 100, ttl := 50 }

/-! ### Claim theorems -/

/-- Helper: the access-log flag of the reconciliation stage is set exactly on
the successful branch. -/
theorem reconcileGet_accessLog (readQuorum : Nat) (now : Int) (idle : Bool)
    (versions : List version) :
    (reconcileGet readQuorum now idle versions).2 = true ↔
      ∃ value, (reconcileGet readQuorum now idle versions).1 = .ok value := by
  unfold reconcileGet
  dsimp only
  split
  · simp
  · split
    · simp
    · split
      · simp
      · split
        · simp
        · simp

/-- C1: the reconciliation stage of `callGetOnCluster` returns its errors in
this priority: fewer collected versions (nil-data included) than
`readQuorum` gives `ErrReadQuorum`; otherwise an empty sanitised set gives
`ErrKeyNotFound`; otherwise a sanitised set smaller than `readQuorum` gives
`ErrReadQuorum`; in particular, when quorum is met and every collected
version is nil-data the result is `ErrKeyNotFound`, never `ErrReadQuorum`. -/
theorem reconcile_error_priority (versions : List version) (readQuorum : Nat)
    (now : Int) (idle : Bool) :
    (versions.length < readQuorum →
      (reconcileGet readQuorum now idle versions).1 = .error .readQuorum)
  ∧ (readQuorum ≤ versions.length →
      versions.filter (fun ver => ver.Data.isSome) = [] →
      (reconcileGet readQuorum now idle versions).1 = .error .keyNotFound)
  ∧ (readQuorum ≤ versions.length →
      versions.filter (fun ver => ver.Data.isSome) ≠ [] →
      (versions.filter (fun ver => ver.Data.isSome)).length < readQuorum →
      (reconcileGet readQuorum now idle versions).1 = .error .readQuorum)
  ∧ (readQuorum ≤ versions.length →
      (∀ v ∈ versions, v.Data = none) →
      (reconcileGet readQuorum now idle versions).1 = .error .keyNotFound ∧
      (reconcileGet readQuorum now idle versions).1 ≠ .error .readQuorum) := by
  have hlen := sanitizeAndSortVersions_length versions
  refine ⟨fun h => ?_, fun h1 h2 => ?_, fun h1 h2 h3 => ?_, fun h1 h2 => ?_⟩
  · unfold reconcileGet
    dsimp only
    rw [if_pos h]
  · have h0 : (sanitizeAndSortVersions versions).length = 0 := by
      rw [hlen, h2]; rfl
    unfold reconcileGet
    dsimp only
    rw [if_neg (Nat.not_lt.mpr h1), if_pos h0]
  · have hne : ¬ (sanitizeAndSortVersions versions).length = 0 := by
      rw [hlen]
      intro h0
      exact h2 (List.length_eq_zero.mp h0)
    unfold reconcileGet
    dsimp only
    rw [if_neg (Nat.not_lt.mpr h1), if_neg hne, if_pos (by rw [hlen]; exact h3)]
  · have h2' : versions.filter (fun ver => ver.Data.isSome) = [] := by
      rw [List.filter_eq_nil_iff]
      intro v hv
      simp [h2 v hv]
    have h0 : (sanitizeAndSortVersions versions).length = 0 := by
      rw [hlen, h2']; rfl
    constructor
    · unfold reconcileGet
      dsimp only
      rw [if_neg (Nat.not_lt.mpr h1), if_pos h0]
    · unfold reconcileGet
      dsimp only
      rw [if_neg (Nat.not_lt.mpr h1), if_pos h0]
      simp

/-- Witness for C1: the shortfall branch and the unanimous-absence branch at
concrete inputs. -/
theorem reconcile_error_priority_witness :
    (reconcileGet 1 0 false []).1 = .error .readQuorum ∧
    (reconcileGet 1 0 false [{ host := mA, Data := none }]).1 =
      .error .keyNotFound := by
  constructor
  · exact (reconcile_error_priority [] 1 0 false).1 (by decide)
  · exact ((reconcile_error_priority [{ host := mA, Data := none }]
      1 0 false).2.2.2 (by decide)
      (by intro v hv; simp at hv; subst hv; rfl)).1

/-- C6: if the winning version is expired (`ttl ≠ 0 ∧ now ≥ ttl`) or the key
is idle, the reconciliation stage of `callGetOnCluster` returns
`ErrKeyNotFound` — indistinguishable from an absent key. -/
theorem expired_or_idle_keyNotFound (versions : List version)
    (readQuorum : Nat) (now : Int) (idle : Bool) (w : version)
    (rest : List version) (wd : VData)
    (h1 : readQuorum ≤ versions.length)
    (h2 : sanitizeAndSortVersions versions = w :: rest)
    (h3 : readQuorum ≤ (w :: rest).length)
    (h4 : w.Data = some wd)
    (h5 : isKeyExpired wd.ttl now = true ∨ idle = true) :
    (reconcileGet readQuorum now idle versions).1 = .error .keyNotFound := by
  have hor : (isKeyExpired wd.ttl now || idle) = true := by
    rcases h5 with h | h <;> simp [h]
  unfold reconcileGet
  dsimp only
  rw [if_neg (Nat.not_lt.mpr h1), h2,
    if_neg (by simp : ¬ ((w :: rest).length = 0)),
    if_neg (Nat.not_lt.mpr h3)]
  simp [h4, hor]

/-- Witness for C6: a single expired record (`ttl = 50`, `now = 60`) under
`readQuorum = 1` yields `ErrKeyNotFound`. -/
theorem expired_or_idle_keyNotFound_witness :
    (reconcileGet 1 60 false
      [{ host := mA, Data := some vdExp }]).1 = .error .keyNotFound :=
  expired_or_idle_keyNotFound
    [{ host := mA, Data := some vdExp }]
    1 60 false
    { host := mA, Data := some vdExp }
    [] vdExp
    (by decide) (by decide) (by decide) rfl (Or.inl (by decide))

/-- C7: on every (non-panicking) execution of `callGetOnCluster`, the access
log is updated exactly when the call returns a value successfully; on
`ErrReadQuorum` or `ErrKeyNotFound` it is untouched. -/
theorem accessLog_iff_success (cfg : Config) (env : LookupEnv) (now : Int)
    (idle : Bool) (res : Except Err (List Nat) × Bool)
    (h : callGetOnCluster cfg env now idle = some res) :
    res.2 = true ↔ ∃ value, res.1 = .ok value := by
  unfold callGetOnCluster at h
  cases hc : collectVersions cfg env with
  | none => rw [hc] at h; cases h
  | some versions =>
    rw [hc] at h
    have hres : res = reconcileGet cfg.readQuorum now idle versions := by
      injection h with h'
      exact h'.symm
    rw [hres]
    exact reconcileGet_accessLog cfg.readQuorum now idle versions

/-- Witness for C7: a successful single-node GET whose access-log flag is
set, via `accessLog_iff_success` at a concrete environment. -/
theorem accessLog_iff_success_witness :
    ((Except.ok [1], true) : Except Err (List Nat) × Bool).2 = true ↔
      ∃ value, ((Except.ok [1], true) :
        Except Err (List Nat) × Bool).1 = .ok value :=
  accessLog_iff_success
    { readQuorum := 1, replicaCount := 1, readRepair := false }
    { this := mA, localGet := .ok vd1, owners := [mA],
      prevRpc := fun _ => .error .transport, backups := [],
      backupRpc := fun _ => .error .transport, decode := fun _ => none }
    0 false (Except.ok [1], true) rfl

/-- C4: `lookupOnReplicas` returns exactly one version per current backup,
in backup-list order, with data equal to the decoded payload when the
`GET-BACKUP` RPC succeeds and decodes, and nil data when the RPC fails or
the payload does not decode; no backup is ever omitted. -/
theorem lookupOnReplicas_one_per_backup (env : LookupEnv) :
    (lookupOnReplicas env).length = env.backups.length
  ∧ ∀ i (h1 : i < env.backups.length)
      (h2 : i < (lookupOnReplicas env).length),
      ((lookupOnReplicas env).get ⟨i, h2⟩).host = env.backups.get ⟨i, h1⟩
    ∧ ((lookupOnReplicas env).get ⟨i, h2⟩).Data =
        (match env.backupRpc (env.backups.get ⟨i, h1⟩) with
         | .error _ => none
         | .ok payload => env.decode payload) := by
  unfold lookupOnReplicas
  refine ⟨List.length_map _ _, ?_⟩
  intro i h1 h2
  constructor
  · simp [List.getElem_map]
  · simp [List.getElem_map]

/-- Witness for C4: one backup whose RPC fails still contributes a version,
with nil data. -/
theorem lookupOnReplicas_one_per_backup_witness :
    ∃ h2 : 0 < (lookupOnReplicas
      { this := mA, localGet := .error .keyNotFound, owners := [mA],
        prevRpc := fun _ => .error .transport, backups := [mB],
        backupRpc := fun _ => .error .transport,
        decode := fun _ => none }).length,
      ((lookupOnReplicas
        { this := mA, localGet := .error .keyNotFound, owners := [mA],
          prevRpc := fun _ => .error .transport, backups := [mB],
          backupRpc := fun _ => .error .transport,
          decode := fun _ => none }).get ⟨0, h2⟩).host = mB := by
  refine ⟨by decide, ?_⟩
  exact ((lookupOnReplicas_one_per_backup
    { this := mA, localGet := .error .keyNotFound, owners := [mA],
      prevRpc := fun _ => .error .transport, backups := [mB],
      backupRpc := fun _ => .error .transport,
      decode := fun _ => none }).2 0 (by decide) (by decide)).1

/-- C10: when the raw bytes of a successful GET deserialise to Go's empty
struct, the public `DMap.Get` returns a nil value with a nil error. -/
theorem get_emptyStruct_returns_nil
    (serializer : List Nat → Except Err GoValue)
    (getResult : Except Err (List Nat)) (rawval : List Nat)
    (h1 : getResult = .ok rawval)
    (h2 : serializer rawval = .ok .emptyStruct) :
    DMapGet serializer getResult = .ok none := by
  subst h1
  simp [DMapGet, unmarshalValue, h2]

/-- Witness for C10 at a concrete serializer and raw value. -/
theorem get_emptyStruct_returns_nil_witness :
    DMapGet (fun _ => .ok .emptyStruct) (.ok [3]) = .ok none :=
  get_emptyStruct_returns_nil (fun _ => .ok .emptyStruct)
    (.ok [3]) [3] rfl rfl

/-- C9 (implicit): a collected version holding the *same timestamp* as the
winner but *different value bytes* is skipped by read repair — the skip test
compares timestamps only, so a tie-broken losing value is left in place. -/
theorem readRepair_tie_skip (name : String) (self : Member)
    (winner ver : version) (wd vd : VData)
    (hw : winner.Data = some wd) (hv : ver.Data = some vd)
    (hts : vd.timestamp = wd.timestamp) (hval : vd.value ≠ wd.value) :
    repairOne name self winner ver = []
  ∧ ∀ rest, readRepair name self winner (ver :: rest) =
      readRepair name self winner rest := by
  have hskip : repairOne name self winner ver = [] := by
    unfold repairOne
    rw [hw, hv]
    simp [hts]
  refine ⟨hskip, fun rest => ?_⟩
  simp [readRepair, hskip]

/-- Witness for C9: the winner `vd2 = (t=100, value=[2])` does not repair a
host holding `vd1 = (t=100, value=[1])`. -/
theorem readRepair_tie_skip_witness :
    repairOne "d" mA { host := mA, Data := some vd2 }
      { host := mB, Data := some vd1 } = [] :=
  (readRepair_tie_skip "d" mA
    { host := mA, Data := some vd2 } { host := mB, Data := some vd1 }
    vd2 vd1 rfl rfl rfl (by decide)).1

/-- Helper: closed form of one read-repair iteration, by case analysis on
the skip test, the host comparison and the winner's ttl. -/
theorem repairOne_eq (name : String) (self : Member) (winner ver : version)
    (wd : VData) (h : winner.Data = some wd) :
    repairOne name self winner ver =
      if (match ver.Data with
          | some vd => wd.timestamp == vd.timestamp
          | none => false) then []
      else if ver.host = self then
        [.lock,
         .localPut { dmap := name, key := wd.key, value := wd.value,
                     timestamp := wd.timestamp, timeout := wd.ttl },
         .unlock]
      else if wd.ttl == 0 then
        [.request ver.host .putReplica
          { DMap := name, Key := wd.key, Value := wd.value,
            Extra := some (.putExtra wd.timestamp) }]
      else
        [.request ver.host .putExReplica
          { DMap := name, Key := wd.key, Value := wd.value,
            Extra := some (.putExExtra wd.timestamp wd.ttl) }] := by
  unfold repairOne
  rw [h]
  simp only [Option.getD_some]
  by_cases hh : ver.host = self <;> by_cases ht : wd.ttl == (0 : Int) <;>
    simp [hh, ht]

/-- C5: read repair skips a collected version iff its data is non-nil and
its timestamp equals the winner's; every write it issues carries the
winner's key, value, timestamp and ttl; a version hosted on this node is
written through the local write path between `Lock` and `Unlock`, any other
host receives `PUT-REPLICA` when the winner's ttl is 0 and `PUT-EX-REPLICA`
(carrying the ttl) otherwise, always with the winner's timestamp. -/
theorem readRepair_writes (name : String) (self : Member) (winner : version)
    (versions : List version) (wd : VData) (h : winner.Data = some wd) :
    readRepair name self winner versions =
      versions.flatMap (repairOne name self winner)
  ∧ ∀ ver ∈ versions,
      (repairOne name self winner ver = [] ↔
        ∃ vd, ver.Data = some vd ∧ vd.timestamp = wd.timestamp)
    ∧ (∀ w, RepairEvent.localPut w ∈ repairOne name self winner ver →
        ver.host = self
      ∧ w = { dmap := name, key := wd.key, value := wd.value,
              timestamp := wd.timestamp, timeout := wd.ttl }
      ∧ repairOne name self winner ver = [.lock, .localPut w, .unlock])
    ∧ (∀ host op msg,
        RepairEvent.request host op msg ∈ repairOne name self winner ver →
        host = ver.host ∧ ver.host ≠ self
      ∧ msg.DMap = name ∧ msg.Key = wd.key ∧ msg.Value = wd.value
      ∧ (wd.ttl = 0 →
          op = .putReplica ∧ msg.Extra = some (.putExtra wd.timestamp))
      ∧ (wd.ttl ≠ 0 →
          op = .putExReplica ∧
          msg.Extra = some (.putExExtra wd.timestamp wd.ttl))) := by
  refine ⟨rfl, ?_⟩
  intro ver hver
  rw [repairOne_eq name self winner ver wd h]
  cases hvd : ver.Data with
  | none =>
    by_cases hh : ver.host = self <;> by_cases ht : wd.ttl = 0 <;>
        simp [hh, ht] <;>
      exact fun host op msg h1 h2 h3 => by
        subst h1; subst h2; subst h3; simp
  | some vd =>
    by_cases hts : wd.timestamp = vd.timestamp
    · have hskip : (wd.timestamp == vd.timestamp) = true := by simp [hts]
      rw [if_pos hskip]
      exact ⟨⟨fun _ => ⟨vd, rfl, hts.symm⟩, fun _ => rfl⟩, by simp, by simp⟩
    · have hts' : (wd.timestamp == vd.timestamp) = false := by
        simp [hts]
      by_cases hh : ver.host = self <;> by_cases ht : wd.ttl = 0 <;>
          simp [hts', hh, ht, Ne.symm hts] <;>
        exact fun host op msg h1 h2 h3 => by
          subst h1; subst h2; subst h3; simp

/-- Witness for C5: a stale remote version (`t=50`) is repaired by a
`PUT-REPLICA` carrying the winner's value and timestamp, and an up-to-date
version (`t=100`) is skipped. -/
theorem readRepair_writes_witness :
    readRepair "d" mA { host := mA, Data := some vd1 }
        [{ host := mB, Data := some vd1 }] =
      [{ host := mB, Data := some vd1 }].flatMap
        (repairOne "d" mA { host := mA, Data := some vd1 })
  ∧ repairOne "d" mA { host := mA, Data := some vd1 }
      { host := mB, Data := some vd1 } = [] := by
  have h := readRepair_writes "d" mA { host := mA, Data := some vd1 }
    [{ host := mB, Data := some vd1 }] vd1 rfl
  refine ⟨h.1, ?_⟩
  exact ((h.2 { host := mB, Data := some vd1 } (by simp)).1).mpr
    ⟨vd1, rfl, rfl⟩

/-- C8 (counterexample to the claim as stated): with `ReadQuorum = 1` and
two configured replicas, the configured replica count reaches
`MinimumReplicaCount`, the backup `mB` would contribute a version, yet the
version pool contains only the local version: the gate at `dmap_get.go:222`
compares `ReadQuorum` — not the number of configured replicas — against
`config.MinimumReplicaCount`. -/
theorem replica_gate_counterexample :
    MinimumReplicaCount ≤
      (Config.mk 1 2 false).replicaCount
  ∧ lookupOnReplicas
      { this := mA, localGet := .ok vd1, owners := [mA],
        prevRpc := fun _ => .error .transport, backups := [mB],
        backupRpc := fun _ => .ok [7], decode := fun _ => some vd2 } ≠ []
  ∧ collectVersions (Config.mk 1 2 false)
      { this := mA, localGet := .ok vd1, owners := [mA],
        prevRpc := fun _ => .error .transport, backups := [mB],
        backupRpc := fun _ => .ok [7], decode := fun _ => some vd2 } =
      some [{ host := mA, Data := some vd1 }] := by
  refine ⟨by decide, ?_, ?_⟩
  · intro hcontra
    have : ([] : List version).length = 1 := by
      rw [← hcontra]; rfl
    simp at this
  · rfl

/-- C8 (amended): replicas are consulted — `lookupOnReplicas` joins the
quorum pool — exactly when `ReadQuorum ≥ config.MinimumReplicaCount`;
otherwise the pool is the owner versions alone. -/
theorem replica_gate_readQuorum (cfg : Config) (env : LookupEnv)
    (vs : List version) (h : lookupOnOwners env = some vs) :
    (MinimumReplicaCount ≤ cfg.readQuorum →
      collectVersions cfg env = some (vs ++ lookupOnReplicas env))
  ∧ (cfg.readQuorum < MinimumReplicaCount →
      collectVersions cfg env = some vs) := by
  unfold collectVersions
  rw [h]
  dsimp only
  constructor
  · intro hq
    rw [if_pos hq]
  · intro hq
    rw [if_neg (Nat.not_le.mpr hq)]

/-- Witness for C8's amended gate at both sides of the threshold. -/
theorem replica_gate_readQuorum_witness :
    collectVersions (Config.mk 2 2 false)
      { this := mA, localGet := .ok vd1, owners := [mA],
        prevRpc := fun _ => .error .transport, backups := [mB],
        backupRpc := fun _ => .ok [7], decode := fun _ => some vd2 } =
      some ([{ host := mA, Data := some vd1 }] ++
        lookupOnReplicas
          { this := mA, localGet := .ok vd1, owners := [mA],
            prevRpc := fun _ => .error .transport, backups := [mB],
            backupRpc := fun _ => .ok [7], decode := fun _ => some vd2 })
  ∧ collectVersions (Config.mk 1 2 false)
      { this := mA, localGet := .ok vd1, owners := [mA],
        prevRpc := fun _ => .error .transport, backups := [mB],
        backupRpc := fun _ => .ok [7], decode := fun _ => some vd2 } =
      some [{ host := mA, Data := some vd1 }] := by
  constructor
  · exact (replica_gate_readQuorum (Config.mk 2 2 false)
      { this := mA, localGet := .ok vd1, owners := [mA],
        prevRpc := fun _ => .error .transport, backups := [mB],
        backupRpc := fun _ => .ok [7], decode := fun _ => some vd2 }
      [{ host := mA, Data := some vd1 }] rfl).1 (by decide)
  · exact (replica_gate_readQuorum (Config.mk 1 2 false)
      { this := mA, localGet := .ok vd1, owners := [mA],
        prevRpc := fun _ => .error .transport, backups := [mB],
        backupRpc := fun _ => .ok [7], decode := fun _ => some vd2 }
      [{ host := mA, Data := some vd1 }] rfl).2 (by decide)

/-- C3 (the code at the failing input): the previous owner `mB` answers
`GET-PREV` with payload `[9]`, which is a well-formed `VData` encoding (the
replica-side decoder accepts it), yet `lookupOnOwners` returns only the
local version: the decode at `dmap_get.go:89` hands `msgpack.Unmarshal` a
non-pointer destination, so it fails on every payload and the previous
owner's version is always omitted — its data is never populated. -/
theorem lookupOnOwners_prev_owner_always_dropped :
    (let env : LookupEnv :=
      { this := mA, localGet := .ok vd1, owners := [mB, mA],
        prevRpc := fun _ => .ok [9], backups := [],
        backupRpc := fun _ => .error .transport,
        decode := fun _ => some vdOld }
     env.prevRpc mB = .ok [9]
     ∧ (env.decode [9]).isSome = true
     ∧ msgpackUnmarshalNonPtr [9] = .error .unmarshal
     ∧ lookupOnOwners env = some [{ host := mA, Data := some vd1 }]) := by
  exact ⟨rfl, rfl, rfl, rfl⟩

/-- The (timestamp, value) pair a version contributes to the §4.1 order. -/
def pairOf (v : version) : Int × List Nat :=
  ((v.Data.getD default).timestamp, (v.Data.getD default).value)

/-- The comparator depends only on the compared (timestamp, value) pairs. -/
theorem versLe_congr {a a' b b' : version} (ha : pairOf a = pairOf a')
    (hb : pairOf b = pairOf b') (h : versLe a b) : versLe a' b' := by
  simp only [pairOf, Prod.mk.injEq] at ha hb
  rw [versLe, versLess_iff] at h ⊢
  rw [← ha.1, ← ha.2, ← hb.1, ← hb.2]
  exact h

/-- Mutually `versLe`-comparable versions carry equal pairs. -/
theorem versLe_antisymm_pair {a b : version} (hab : versLe a b)
    (hba : versLe b a) : pairOf a = pairOf b := by
  rw [versLe, versLess_iff] at hab hba
  simp only [pairOf, Prod.mk.injEq]
  rcases hab with ⟨hts1, hv1⟩ | h1 <;> rcases hba with ⟨hts2, hv2⟩ | h2
  · exact ⟨hts1, bytesCompare_ge_antisymm hv1 hv2⟩
  · exact absurd h2 (by omega)
  · exact absurd h1 (by omega)
  · exact absurd h1 (by omega)

/-- C2: for a non-empty list of versions with non-nil data, the winner (the
head after sorting) maximises (timestamp, value-bytes): no version has a
strictly larger timestamp, and among the versions sharing the winner's
timestamp the winner's value bytes are lexicographically greatest; moreover
the winner's (timestamp, value) pair is a function of the multiset of
(timestamp, value) pairs alone. -/
theorem sortVersions_winner (versions : List version)
    (hsome : ∀ v ∈ versions, v.Data.isSome) (hne : versions ≠ []) :
    ∃ w rest wd, sortVersions versions = w :: rest ∧ w ∈ versions ∧
      w.Data = some wd
    ∧ (∀ v ∈ versions, ∀ vd, v.Data = some vd →
        vd.timestamp ≤ wd.timestamp ∧
        (vd.timestamp = wd.timestamp →
          bytesCompare wd.value vd.value ≠ .lt))
    ∧ (∀ versions2 w2 rest2 wd2,
        (versions.map pairOf).Perm (versions2.map pairOf) →
        sortVersions versions2 = w2 :: rest2 →
        w2.Data = some wd2 →
        wd2.timestamp = wd.timestamp ∧ wd2.value = wd.value) := by
  cases hs : sortVersions versions with
  | nil =>
    exfalso
    have hlen := (sortVersions_perm versions).length_eq
    rw [hs] at hlen
    exact hne (List.length_eq_zero.mp hlen.symm)
  | cons w rest =>
    obtain ⟨hwmem, hwmax⟩ := sortVersions_head_max hs
    obtain ⟨wd, hwd⟩ := Option.isSome_iff_exists.mp (hsome w hwmem)
    refine ⟨w, rest, wd, rfl, hwmem, hwd, ?_, ?_⟩
    · intro v hv vd hvd
      have hle := hwmax v hv
      rw [versLe, versLess_iff, hwd, hvd] at hle
      simp only [Option.getD_some] at hle
      rcases hle with ⟨hts, hval⟩ | hlt
      · exact ⟨le_of_eq hts.symm, fun _ => hval⟩
      · exact ⟨le_of_lt hlt, fun heq => absurd hlt (by omega)⟩
    · intro versions2 w2 rest2 wd2 hperm hs2 hwd2
      obtain ⟨hw2mem, hw2max⟩ := sortVersions_head_max hs2
      have h1 : pairOf w ∈ versions2.map pairOf :=
        hperm.mem_iff.mp (List.mem_map_of_mem pairOf hwmem)
      obtain ⟨x, hxmem, hxpair⟩ := List.mem_map.mp h1
      have hle1 : versLe w2 w :=
        versLe_congr rfl hxpair (hw2max x hxmem)
      have h2 : pairOf w2 ∈ versions.map pairOf :=
        hperm.symm.mem_iff.mp (List.mem_map_of_mem pairOf hw2mem)
      obtain ⟨y, hymem, hypair⟩ := List.mem_map.mp h2
      have hle2 : versLe w w2 :=
        versLe_congr rfl hypair (hwmax y hymem)
      have hpair := versLe_antisymm_pair hle2 hle1
      rw [pairOf, pairOf, hwd, hwd2] at hpair
      simp only [Option.getD_some, Prod.mk.injEq] at hpair
      exact ⟨hpair.1.symm, hpair.2.symm⟩

/-- Witness for C2: the timestamp tie between values `[1]` and `[2]` at
`t = 100` resolves to the lexicographically greater `[2]`. -/
theorem sortVersions_winner_witness :
    ∃ w rest wd,
      sortVersions [{ host := mA, Data := some vd1 },
        { host := mB, Data := some vd2 }] = w :: rest
    ∧ w ∈ [({ host := mA, Data := some vd1 } : version),
        { host := mB, Data := some vd2 }]
    ∧ w.Data = some wd := by
  obtain ⟨w, rest, wd, h1, h2, h3, _, _⟩ :=
    sortVersions_winner
      [{ host := mA, Data := some vd1 }, { host := mB, Data := some vd2 }]
      (by decide) (by decide)
  exact ⟨w, rest, wd, h1, h2, h3⟩

end Olric
